import Mathlib

/-
  Verification development for flac2mp3.py, a directory-tree audio
  transcoding script.  The script walks an input directory for files with
  suffix ".flac", mirrors the directory structure under an output root with
  the extension swapped to ".mp3", and invokes the external encoder
  (`ffmpeg`) once per file, either sequentially or in chunked parallel
  batches of a user-chosen size.

  The embedding below models Python strings as lists of characters and
  filesystem paths as lists of path components (the parts of a
  PurePosixPath).  All definitions are translated from src/flac2mp3.py and
  the documented semantics of the Python standard library functions it
  calls (pathlib.PurePath.suffix / with_suffix / relative_to, os.walk,
  range, subprocess.call, multiprocessing.Process).
-/

namespace Flac2Mp3

/-- A Python string, modelled as its list of characters. -/
abbrev Pstr := List Char

/-- A filesystem path, modelled as its list of components. -/
abbrev Fpath := List Pstr

/-- Index of the last occurrence of a dot in a string, or none.
Models Python `str.rfind('.')` (which returns -1 when absent). -/
def rfindDot : Pstr → Option Nat
  | [] => none
  | c :: cs =>
    match rfindDot cs with
    | some i => some (i + 1)
    | none => if c = '.' then some 0 else none

/-- `pathlib.PurePath.suffix` applied to a file name: the part of the name
from the last dot on, provided that dot is neither the first nor the last
character; otherwise the empty string.  (CPython: `i = name.rfind('.');
return name[i:] if 0 < i < len(name) - 1 else ''`.) -/
def pySuffix (name : Pstr) : Pstr :=
  match rfindDot name with
  | some i => if 0 < i ∧ i < name.length - 1 then name.drop i else []
  | none => []

/-- `pathlib.PurePath.with_suffix` applied to a file name: if the name has
no suffix the new suffix is appended, otherwise the old suffix is replaced
(CPython: `name[:-len(old_suffix)] + suffix`). -/
def pyWithSuffix (name suf : Pstr) : Pstr :=
  let old := pySuffix name
  if old = [] then name ++ suf
  else name.take (name.length - old.length) ++ suf

/-- The source extension, line 45 of flac2mp3.py: `formats = ['.flac']`. -/
def flacExt : Pstr := ".flac".data

/-- The destination extension, line 63: `newFile.with_suffix('.mp3')`. -/
def mp3Ext : Pstr := ".mp3".data

/-- Line 45: `formats = ['.flac']`. -/
def formats : List Pstr := [flacExt]

/-- `pathlib.PurePath.name`: the final path component (empty for the empty
path). -/
def lastComp (p : Fpath) : Pstr := p.getLastD []

/-- A directory entry: a plain file or a subdirectory with its entries.
The list order models the (unspecified but fixed) directory listing order
seen by `os.walk`. -/
inductive Entry where
  | file (name : Pstr)
  | dir (name : Pstr) (entries : List Entry)

/-- The inner loop of lines 48-52: for the files directly inside one
directory (prefixed by `pre`), keep those whose `suffix` is in `formats`,
as full paths `Path(root) / name`. -/
def flacsHere (pre : Fpath) (es : List Entry) : List Fpath :=
  es.filterMap fun e =>
    match e with
    | .file n => if pySuffix n ∈ formats then some (pre ++ [n]) else none
    | .dir _ _ => none

/-- All files directly inside one directory, unfiltered (used to count the
files a directory tree contains). -/
def filesHere (pre : Fpath) (es : List Entry) : List Fpath :=
  es.filterMap fun e =>
    match e with
    | .file n => some (pre ++ [n])
    | .dir _ _ => none

mutual

/-- Lines 48-52: the flac files collected by walking a directory whose
path is `pre` and whose entries are `es`.  `os.walk` is top-down: the
files of a directory are yielded before those of its subdirectories, and
subdirectories are visited in listing order. -/
def walkRoot (pre : Fpath) (es : List Entry) : List Fpath :=
  flacsHere pre es ++ walkDirs pre es
termination_by (sizeOf es, 1)

/-- The recursion of `os.walk` into the subdirectories of a directory. -/
def walkDirs (pre : Fpath) (es : List Entry) : List Fpath :=
  match es with
  | [] => []
  | .file _ :: rest => walkDirs pre rest
  | .dir n cs :: rest => walkRoot (pre ++ [n]) cs ++ walkDirs pre rest
termination_by (sizeOf es, 0)

end

mutual

/-- All files under a directory tree, in the same top-down walk order as
`walkRoot`, with no extension filtering. -/
def allRoot (pre : Fpath) (es : List Entry) : List Fpath :=
  filesHere pre es ++ allDirs pre es
termination_by (sizeOf es, 1)

/-- The recursion of `allRoot` into subdirectories. -/
def allDirs (pre : Fpath) (es : List Entry) : List Fpath :=
  match es with
  | [] => []
  | .file _ :: rest => allDirs pre rest
  | .dir n cs :: rest => allRoot (pre ++ [n]) cs ++ allDirs pre rest
termination_by (sizeOf es, 0)

end

/-- `pathlib.PurePath.relative_to`: strip `root` from the front of `p`;
`none` models the ValueError raised when `p` is not below `root`. -/
def relativeTo : Fpath → Fpath → Option Fpath
  | p, [] => some p
  | [], _ :: _ => none
  | x :: p, r :: root => if x = r then relativeTo p root else none

/-- Lines 56-63 (and identically 84-91): from a source file path compute
the destination parent directory (`newPath.parent`, which line 60 then
creates) and the destination file (`newPath / flacFile` with suffix
replaced by ".mp3").  `none` models the ValueError of `relative_to`. -/
def mapDest (inR outR : Fpath) (name : Fpath) : Option (Fpath × Fpath) :=
  match relativeTo name inR with
  | none => none
  | some rel =>
    let newPath := outR ++ rel
    let flacFile := lastComp newPath
    let parentDir := newPath.dropLast
    some (parentDir, parentDir ++ [pyWithSuffix flacFile mp3Ext])

/-- Destination of a subprocess output stream.  `inherit` is Python
`stdout=None` (the child writes to the parent's own stdout, so the output
is shown); `pipe` is `subprocess.PIPE`; `devnull` is `subprocess.DEVNULL`. -/
inductive StdDest where
  | inherit
  | pipe
  | devnull
deriving DecidableEq

/-- Modelled from the documented semantics of `subprocess.call`: the
child's output is displayed only when the stream is inherited
(`stdout=None`).  With `DEVNULL` it is discarded, and with `PIPE` it goes
into a pipe that `subprocess.call` never reads, so it is never displayed
(the `subprocess` documentation explicitly warns against using `PIPE`
with `call`). -/
def visibleDest : StdDest → Bool
  | .inherit => true
  | _ => false

/-- Lines 65-67 (and 93-95): `logDevice = subprocess.PIPE; if not verbose:
logDevice = subprocess.DEVNULL`. -/
def logDevice (verbose : Bool) : StdDest :=
  if verbose then .pipe else .devnull

/-- `str()` of a path: its components joined by the separator. -/
def pathStr (p : Fpath) : Pstr := List.intercalate "/".data p

/-- Lines 70-71 (and 98-99): the encoder command,
`["ffmpeg", "-i", str(name), "-qscale:a", str(quality), str(newFile)]`. -/
def ffmpegCmd (q : Nat) (src dst : Fpath) : List Pstr :=
  ["ffmpeg".data, "-i".data, pathStr src, "-qscale:a".data, (Nat.repr q).data, pathStr dst]

/-- One observable event of a run: the status line printed before an
invocation (lines 73-74), or an encoder invocation.  A `call` records the
source and destination paths it is for, the exact argv, the stream the
output was sent to, and the exit status the external process eventually
returned (which the script discards: `subprocess.call(...)` is a bare
statement). -/
inductive SeqEv where
  | status (argv : List Pstr)
  | call (src dst : Fpath) (argv : List Pstr) (dev : StdDest) (code : Int)
deriving DecidableEq

/-- An exception aborting the run: `mkdir` failing (permissions or a
non-directory collision; `exist_ok=True` makes an existing directory a
success), or `relative_to` raising ValueError. -/
inductive RunErr where
  | mkdirFail (d : Fpath)
  | relFail (p : Fpath)
deriving DecidableEq

/-- Result of the sequential loop: its printed/invoked events, the set of
files existing afterwards, and the exception that aborted it, if any. -/
structure SeqResult where
  log : List SeqEv
  fsOut : List Fpath
  err : Option RunErr
deriving DecidableEq

/-- Lines 54-77, the sequential branch (`parallel <= 0`): for each
discovered file, map its path, create the destination directory, and
unless the destination file already exists, print the command and invoke
the encoder synchronously.  `mk d` says whether creating directory `d`
succeeds (a static model of permissions; creation is idempotent).  `ec`
gives the exit status the external encoder returns for an argv; the
script never inspects it.  `fs` is the list of files that currently
exist; the model assumes a completed encoder invocation creates its
destination file. -/
def runSeqE (mk : Fpath → Bool) (ec : List Pstr → Int) (inR outR : Fpath)
    (q : Nat) (vb : Bool) : List Fpath → List Fpath → SeqResult
  | fs, [] => ⟨[], fs, none⟩
  | fs, name :: rest =>
    match mapDest inR outR name with
    | none => ⟨[], fs, some (.relFail name)⟩
    | some (parentDir, newFile) =>
      if mk parentDir then
        let dev := logDevice vb
        if newFile ∈ fs then
          runSeqE mk ec inR outR q vb fs rest
        else
          let c := ffmpegCmd q name newFile
          let r := runSeqE mk ec inR outR q vb (newFile :: fs) rest
          ⟨SeqEv.status c :: SeqEv.call name newFile c dev (ec c) :: r.log, r.fsOut, r.err⟩
      else ⟨[], fs, some (.mkdirFail parentDir)⟩

/-- The argv lists of the encoder invocations in a log. -/
def callsOf : List SeqEv → List (List Pstr)
  | [] => []
  | .call _ _ c _ _ :: t => c :: callsOf t
  | .status _ :: t => callsOf t

/-- The destination paths of the encoder invocations in a log. -/
def callDests : List SeqEv → List Fpath
  | [] => []
  | .call _ d _ _ _ :: t => d :: callDests t
  | .status _ :: t => callDests t

/-- Result of processing one chunk in the parallel branch: the events of
the scheduler loop, the source and destination paths of the tasks it
launched (in launch order), and the exception that aborted the loop, if
any.  On an exception, tasks launched before it stay launched. -/
structure ChunkOut where
  log : List SeqEv
  launchedSrc : List Fpath
  launchedDst : List Fpath
  err : Option RunErr
deriving DecidableEq

/-- Lines 83-110, the loop over one `pathSubset`: for each file, map its
path, create the destination directory, and unless the destination
already exists, print the command and start one `multiprocessing.Process`
running `subprocess.call`.  Existence checks see `fs` as it was when the
chunk started: the launched sibling processes run concurrently and have
not necessarily created their outputs yet. -/
def runChunk (mk : Fpath → Bool) (ec : List Pstr → Int) (inR outR : Fpath)
    (q : Nat) (vb : Bool) (fs : List Fpath) : List Fpath → ChunkOut
  | [] => ⟨[], [], [], none⟩
  | name :: rest =>
    match mapDest inR outR name with
    | none => ⟨[], [], [], some (.relFail name)⟩
    | some (parentDir, newFile) =>
      if mk parentDir then
        let dev := logDevice vb
        if newFile ∈ fs then
          runChunk mk ec inR outR q vb fs rest
        else
          let c := ffmpegCmd q name newFile
          let r := runChunk mk ec inR outR q vb fs rest
          ⟨SeqEv.status c :: SeqEv.call name newFile c dev (ec c) :: r.log,
            name :: r.launchedSrc, newFile :: r.launchedDst, r.err⟩
      else ⟨[], [], [], some (.mkdirFail parentDir)⟩

/-- Result of the parallel branch: the outcome of each chunk processed,
the set of files existing after the run, and the exception that aborted
it, if any. -/
structure ParOut where
  chunksOut : List ChunkOut
  fsOut : List Fpath
  err : Option RunErr
deriving DecidableEq

/-- Lines 80-115: process the chunks in order; after launching a chunk's
tasks, join every one of them (lines 113-115) before starting the next
chunk.  The destination files of the chunk's launched tasks exist once
the barrier completes (the model assumes each launched encoder eventually
creates its destination file; on an exception the already-launched
orphaned processes still do). -/
def runParChunks (mk : Fpath → Bool) (ec : List Pstr → Int) (inR outR : Fpath)
    (q : Nat) (vb : Bool) : List Fpath → List (List Fpath) → ParOut
  | fs, [] => ⟨[], fs, none⟩
  | fs, c :: cs =>
    let co := runChunk mk ec inR outR q vb fs c
    match co.err with
    | some e => ⟨[co], fs ++ co.launchedDst, some e⟩
    | none =>
      let r := runParChunks mk ec inR outR q vb (fs ++ co.launchedDst) cs
      ⟨co :: r.chunksOut, r.fsOut, r.err⟩

/-- The source paths of all tasks launched during a parallel run. -/
def parLaunchedSrcs (po : ParOut) : List Fpath :=
  (po.chunksOut.map (·.launchedSrc)).flatten

/-- The destination paths of all tasks launched during a parallel run. -/
def parLaunchedDsts (po : ParOut) : List Fpath :=
  (po.chunksOut.map (·.launchedDst)).flatten

/-- Python `range(0, stop, step)` for `step >= 1`: the multiples of
`step` below `stop`, in increasing order. -/
def rangeStep (stop step : Nat) : List Nat :=
  (List.range ((stop + step - 1) / step)).map (· * step)

/-- Lines 118-122 for a positive step: `for i in range(0, len(l), n):
yield l[i:i + n]`, with the slice `l[i:i + n]` being drop-then-take. -/
def chunksL (l : List α) (n : Nat) : List (List α) :=
  (rangeStep l.length n).map fun i => (l.drop i).take n

/-- Lines 118-122 for any integer step, with Python `range` semantics:
`range(0, len(l), 0)` raises ValueError (the `.error` case), and
`range(0, len(l), n)` for negative `n` is empty, so the generator yields
no chunks at all. -/
def chunksPy (l : List α) (n : Int) : Except Unit (List (List α)) :=
  if n = 0 then .error ()
  else if n < 0 then .ok []
  else .ok (chunksL l n.toNat)

/-- Outcome of `main`, lines 25-115: either the sequential branch ran or
the parallel branch did. -/
inductive MainOut where
  | seqOut (r : SeqResult)
  | parOut (r : ParOut)
deriving DecidableEq

/-- `main(inputPath, outPath, quality, parallel, verbose)`, lines 25-115:
discover the flac files under the input root (lines 48-52), then run
sequentially when `parallel <= 0` (line 54) and otherwise over the chunks
of `chunks(musicFiles, parallel)` (line 80).  The `.error` case is the
ValueError `range` would raise inside `chunks`. -/
def mainRun (mk : Fpath → Bool) (ec : List Pstr → Int) (es : List Entry)
    (inR outR : Fpath) (q : Nat) (parallel : Int) (vb : Bool)
    (fs : List Fpath) : Except Unit MainOut :=
  let musicFiles := walkRoot inR es
  if parallel ≤ 0 then
    .ok (.seqOut (runSeqE mk ec inR outR q vb fs musicFiles))
  else
    match chunksPy musicFiles parallel with
    | .error e => .error e
    | .ok cs => .ok (.parOut (runParChunks mk ec inR outR q vb fs cs))

/-
  A small-step semantics for the parallel scheduler of lines 80-115, used
  to state the concurrency properties.  The scheduler's thread launches
  the current chunk's tasks one by one (`p.start()`), each launched task
  exits at some arbitrary later moment, and the scheduler may move on to
  the next chunk only when the current chunk's pending and running task
  lists are both empty — that is the join barrier of lines 113-115.
-/

/-- State of the parallel scheduler: how many chunks have been entered,
the tasks of the current chunk not yet launched, the launched tasks that
have not yet exited, and the chunks not yet entered. -/
structure SchedState where
  taken : Nat
  pending : List Fpath
  running : List Fpath
  rest : List (List Fpath)
deriving DecidableEq

/-- An observable scheduler event, tagged with the index of the chunk it
belongs to. -/
inductive SEv where
  | launch (i : Nat) (j : Fpath)
  | exited (i : Nat) (j : Fpath)
deriving DecidableEq

/-- One step of the parallel scheduler.  `next` enters the next chunk and
is enabled only when no task of the current chunk is pending or running
(the join of lines 113-115 blocks the scheduler until then); `launch` is
`p.start()` for the next pending task; `exited` is a running task's
external process exiting, which can happen at any time. -/
inductive SchedStep : SchedState → List SEv → SchedState → Prop where
  | next {t : Nat} {c : List Fpath} {r : List (List Fpath)} :
      SchedStep ⟨t, [], [], c :: r⟩ [] ⟨t + 1, c, [], r⟩
  | launch {t : Nat} {j : Fpath} {p run : List Fpath} {r : List (List Fpath)} :
      SchedStep ⟨t, j :: p, run, r⟩ [SEv.launch (t - 1) j] ⟨t, p, run ++ [j], r⟩
  | exited {t : Nat} {j : Fpath} {p run : List Fpath} {r : List (List Fpath)}
      (h : j ∈ run) :
      SchedStep ⟨t, p, run, r⟩ [SEv.exited (t - 1) j] ⟨t, p, run.erase j, r⟩

/-- Reachability for the scheduler: the trace is the concatenation of the
events of the steps taken. -/
inductive SchedReach : SchedState → List SEv → SchedState → Prop where
  | refl (s : SchedState) : SchedReach s [] s
  | step {s s₁ s₂ : SchedState} {t e : List SEv} :
      SchedReach s t s₁ → SchedStep s₁ e s₂ → SchedReach s (t ++ e) s₂

/-- The scheduler's initial state for a list of launched chunks. -/
def schedInit (lcs : List (List Fpath)) : SchedState := ⟨0, [], [], lcs⟩

/-- The chunk of index `i` (empty when out of range). -/
def chunkAt (lcs : List (List Fpath)) (i : Nat) : List Fpath :=
  (lcs.drop i).headD []

/-- The per-chunk lists of launched tasks of a parallel run over the
chunks of `files` with chunk size `k` — the chunks the scheduler's join
barriers range over. -/
def parLaunchChunks (mk : Fpath → Bool) (ec : List Pstr → Int) (inR outR : Fpath)
    (q : Nat) (vb : Bool) (fs files : List Fpath) (k : Nat) : List (List Fpath) :=
  ((runParChunks mk ec inR outR q vb fs (chunksL files k)).chunksOut).map
    (·.launchedSrc)

/-- Erase the exit status recorded in an event, leaving everything the
program itself can observe or emit. -/
def stripCode : SeqEv → SeqEv
  | .call s d c dv _ => .call s d c dv 0
  | e => e

/-- The destination file computed by the Path Mapper, as a total
function (the empty path when `relative_to` would raise). -/
def destFile (inR outR : Fpath) (name : Fpath) : Fpath :=
  ((mapDest inR outR name).map Prod.snd).getD []

/-
  Lemmas about suffixes and the directory walk.
-/

/-- A name whose pathlib suffix is ".flac" splits as a non-empty stem
followed by ".flac", and `with_suffix('.mp3')` keeps exactly that stem. -/
theorem pySuffix_flac {name : Pstr} (h : pySuffix name = flacExt) :
    ∃ stem, stem ≠ [] ∧ name = stem ++ flacExt ∧
      pyWithSuffix name mp3Ext = stem ++ mp3Ext := by
  have h5 : flacExt.length = 5 := by decide
  rcases hfd : rfindDot name with _ | i
  · simp only [pySuffix, hfd] at h
    exact absurd h (by decide)
  · by_cases hc : 0 < i ∧ i < name.length - 1
    · obtain ⟨hi0, hi1⟩ := hc
      have hdrop : name.drop i = flacExt := by
        simp only [pySuffix, hfd] at h
        rw [if_pos ⟨hi0, hi1⟩] at h; exact h
      have hlen : name.length - i = 5 := by
        have := congrArg List.length hdrop
        rw [List.length_drop, h5] at this; exact this
      have hil : i < name.length := by omega
      refine ⟨name.take i, ?_, ?_, ?_⟩
      · intro hnil
        have hlt : (name.take i).length = 0 := by rw [hnil]; rfl
        rw [List.length_take] at hlt
        omega
      · conv_lhs => rw [← List.take_append_drop i name]
        rw [hdrop]
      · rw [pyWithSuffix, h, if_neg (by decide : ¬(flacExt = ([] : Pstr)))]
        congr 2
        omega
    · simp only [pySuffix, hfd] at h
      rw [if_neg hc] at h
      exact absurd h (by decide)

mutual

/-- Every path collected by the walk is the walk root extended by some
(possibly empty) chain of directory names and a final file name whose
pathlib suffix is exactly ".flac". -/
theorem walkRoot_shape (pre : Fpath) (es : List Entry) :
    ∀ p ∈ walkRoot pre es, ∃ mid n, p = pre ++ mid ++ [n] ∧ pySuffix n = flacExt := by
  intro p hp
  rw [walkRoot] at hp
  rcases List.mem_append.1 hp with h | h
  · simp only [flacsHere, List.mem_filterMap] at h
    obtain ⟨e, _, hm⟩ := h
    cases e with
    | file n =>
      dsimp only at hm
      by_cases hf : pySuffix n ∈ formats
      · rw [if_pos hf] at hm
        obtain rfl := Option.some.inj hm
        exact ⟨[], n, by simp, by simpa [formats] using hf⟩
      · rw [if_neg hf] at hm
        exact absurd hm (by simp)
    | dir n cs => exact absurd hm (by simp)
  · exact walkDirs_shape pre es p h
termination_by (sizeOf es, 1)

/-- As `walkRoot_shape`, for the subdirectory part of the walk. -/
theorem walkDirs_shape (pre : Fpath) (es : List Entry) :
    ∀ p ∈ walkDirs pre es, ∃ mid n, p = pre ++ mid ++ [n] ∧ pySuffix n = flacExt := by
  cases es with
  | nil => intro p hp; rw [walkDirs] at hp; cases hp
  | cons e rest =>
    cases e with
    | file m =>
      intro p hp
      rw [walkDirs] at hp
      exact walkDirs_shape pre rest p hp
    | dir n cs =>
      intro p hp
      rw [walkDirs] at hp
      rcases List.mem_append.1 hp with h | h
      · obtain ⟨mid, lastn, heq, hsuf⟩ := walkRoot_shape (pre ++ [n]) cs p h
        exact ⟨n :: mid, lastn, by simp [heq], hsuf⟩
      · exact walkDirs_shape pre rest p h
termination_by (sizeOf es, 0)

end

/-- The final component of a path that ends in `n` is `n`. -/
theorem lastComp_concat (l : Fpath) (n : Pstr) : lastComp (l ++ [n]) = n := by
  simp [lastComp]

/-- `relative_to` strips an exact root prefix. -/
theorem relativeTo_append (root rest : Fpath) :
    relativeTo (root ++ rest) root = some rest := by
  induction root with
  | nil => cases rest with
    | nil => rfl
    | cons x xs => rfl
  | cons r root ih => simpa [relativeTo] using ih

/-- The discovery filter: the flac files of one directory are its files
filtered by the pathlib suffix test. -/
theorem flacsHere_filter (pre : Fpath) (es : List Entry) :
    flacsHere pre es =
      (filesHere pre es).filter (fun p => decide (pySuffix (lastComp p) ∈ formats)) := by
  induction es with
  | nil => rfl
  | cons e rest ih =>
    cases e with
    | file n =>
      by_cases hf : pySuffix n ∈ formats
      · simp [flacsHere, filesHere, List.filterMap_cons, List.filter_cons,
          lastComp_concat, hf] at ih ⊢
        exact ih
      · simp [flacsHere, filesHere, List.filterMap_cons, List.filter_cons,
          lastComp_concat, hf] at ih ⊢
        exact ih
    | dir n cs =>
      simp [flacsHere, filesHere, List.filterMap_cons] at ih ⊢
      exact ih

mutual

/-- The walk returns exactly the files of the tree whose pathlib suffix
passes the `formats` test, in walk order. -/
theorem walkRoot_filter (pre : Fpath) (es : List Entry) :
    walkRoot pre es =
      (allRoot pre es).filter (fun p => decide (pySuffix (lastComp p) ∈ formats)) := by
  rw [walkRoot, allRoot, List.filter_append, flacsHere_filter, walkDirs_filter]
termination_by (sizeOf es, 1)

/-- As `walkRoot_filter`, for the subdirectory part of the walk. -/
theorem walkDirs_filter (pre : Fpath) (es : List Entry) :
    walkDirs pre es =
      (allDirs pre es).filter (fun p => decide (pySuffix (lastComp p) ∈ formats)) := by
  cases es with
  | nil => rw [walkDirs, allDirs]; rfl
  | cons e rest =>
    cases e with
    | file m => rw [walkDirs, allDirs]; exact walkDirs_filter pre rest
    | dir n cs =>
      rw [walkDirs, allDirs, List.filter_append, walkRoot_filter, walkDirs_filter]
termination_by (sizeOf es, 0)

end

/-- C1: for every discovered source file, the Path Mapper's destination,
relative to the output root, equals the source relative to the input
root, with only the final extension replaced by ".mp3": the leading
components (`rel.dropLast`) and the filename stem (which may itself
contain dots) are unchanged. -/
theorem c1_dest_mirrors_source (inR outR : Fpath) (es : List Entry) (name : Fpath)
    (h : name ∈ walkRoot inR es) :
    ∃ rel stem,
      relativeTo name inR = some rel ∧
      rel ≠ [] ∧
      rel = rel.dropLast ++ [stem ++ flacExt] ∧
      stem ≠ [] ∧
      mapDest inR outR name =
        some (outR ++ rel.dropLast, outR ++ rel.dropLast ++ [stem ++ mp3Ext]) ∧
      relativeTo (outR ++ rel.dropLast ++ [stem ++ mp3Ext]) outR =
        some (rel.dropLast ++ [stem ++ mp3Ext]) := by
  obtain ⟨mid, n, rfl, hsuf⟩ := walkRoot_shape inR es name h
  obtain ⟨stem, hne, hsplit, hwith⟩ := pySuffix_flac hsuf
  have hrel : relativeTo (inR ++ mid ++ [n]) inR = some (mid ++ [n]) := by
    rw [List.append_assoc]
    exact relativeTo_append inR (mid ++ [n])
  refine ⟨mid ++ [n], stem, hrel, by simp, ?_, hne, ?_, ?_⟩
  · rw [List.dropLast_concat, hsplit]
  · simp only [mapDest, hrel]
    rw [show outR ++ (mid ++ [n]) = outR ++ mid ++ [n] from by rw [List.append_assoc]]
    rw [lastComp_concat, List.dropLast_concat, List.dropLast_concat, hwith]
  · rw [List.dropLast_concat, List.append_assoc]
    exact relativeTo_append outR (mid ++ [stem ++ mp3Ext])

/-- Witness for `c1_dest_mirrors_source` on a one-file tree. -/
theorem c1_dest_mirrors_source_wit :
    ([["i".data.head!], "a.flac".data] ∈
        walkRoot [["i".data.head!]] [Entry.file "a.flac".data]) ∧
    (∃ rel stem,
      relativeTo [["i".data.head!], "a.flac".data] [["i".data.head!]] = some rel ∧
      rel ≠ [] ∧
      rel = rel.dropLast ++ [stem ++ flacExt] ∧
      stem ≠ [] ∧
      mapDest [["i".data.head!]] ["o".data] [["i".data.head!], "a.flac".data] =
        some (["o".data] ++ rel.dropLast, ["o".data] ++ rel.dropLast ++ [stem ++ mp3Ext]) ∧
      relativeTo (["o".data] ++ rel.dropLast ++ [stem ++ mp3Ext]) ["o".data] =
        some (rel.dropLast ++ [stem ++ mp3Ext])) := by
  have hm : [["i".data.head!], "a.flac".data] ∈
      walkRoot [["i".data.head!]] [Entry.file "a.flac".data] := by
    rw [walkRoot, walkDirs]
    simp [flacsHere]
    decide
  exact ⟨hm, c1_dest_mirrors_source _ _ _ _ hm⟩

/-- C5: the Discoverer returns exactly the files of the tree whose
filename suffix equals ".flac" (a case-sensitive comparison): it is the
suffix-filter of all files of the tree, its length counts exactly those
files, and no returned path has a different suffix. -/
theorem c5_discovery_exact (pre : Fpath) (es : List Entry) :
    walkRoot pre es =
      (allRoot pre es).filter (fun p => decide (pySuffix (lastComp p) ∈ formats)) ∧
    (walkRoot pre es).length =
      (allRoot pre es).countP (fun p => decide (pySuffix (lastComp p) ∈ formats)) ∧
    ∀ p ∈ walkRoot pre es, pySuffix (lastComp p) = flacExt := by
  refine ⟨walkRoot_filter pre es, ?_, ?_⟩
  · rw [walkRoot_filter, List.countP_eq_length_filter]
  · intro p hp
    obtain ⟨mid, n, rfl, hsuf⟩ := walkRoot_shape pre es p hp
    rw [show pre ++ mid ++ [n] = (pre ++ mid) ++ [n] from rfl, lastComp_concat]
    exact hsuf

/-- C10: a file named exactly ".flac" has empty pathlib suffix and is
never discovered; every discovered path's final component is a non-empty
stem followed by ".flac". -/
theorem c10_no_bare_dotflac (pre : Fpath) (es : List Entry) (p : Fpath)
    (h : p ∈ walkRoot pre es) :
    pySuffix flacExt = [] ∧ lastComp p ≠ flacExt ∧
      ∃ stem, stem ≠ [] ∧ lastComp p = stem ++ flacExt := by
  obtain ⟨mid, n, rfl, hsuf⟩ := walkRoot_shape pre es p h
  obtain ⟨stem, hne, hsplit, _⟩ := pySuffix_flac hsuf
  have hlast : lastComp (pre ++ mid ++ [n]) = n := lastComp_concat (pre ++ mid) n
  refine ⟨by decide, ?_, stem, hne, ?_⟩
  · rw [hlast, hsplit]
    intro hx
    apply hne
    have hl := congrArg List.length hx
    rw [List.length_append] at hl
    have : stem.length = 0 := by omega
    exact List.eq_nil_of_length_eq_zero this
  · rw [hlast]
    exact hsplit

/-- Witness for `c10_no_bare_dotflac`: a tree holding both "a.flac" and a
bare ".flac" dotfile; the discovered path is the former. -/
theorem c10_no_bare_dotflac_wit :
    (["a.flac".data] ∈ walkRoot [] [Entry.file ".flac".data, Entry.file "a.flac".data]) ∧
    (pySuffix flacExt = [] ∧ lastComp ["a.flac".data] ≠ flacExt ∧
      ∃ stem, stem ≠ [] ∧ lastComp ["a.flac".data] = stem ++ flacExt) := by
  have hm : ["a.flac".data] ∈
      walkRoot [] [Entry.file ".flac".data, Entry.file "a.flac".data] := by
    rw [walkRoot, walkDirs, walkDirs, walkDirs]
    simp [flacsHere]
    decide
  exact ⟨hm, c10_no_bare_dotflac _ _ _ hm⟩

/-
  Lemmas about `chunks`.
-/

/-- Chunking the empty list yields no chunks. -/
theorem chunksL_nil {α} (n : Nat) : chunksL ([] : List α) n = [] := by
  have h : (n - 1) / n = 0 := by
    cases n with
    | zero => rfl
    | succ m => exact Nat.div_eq_of_lt (by omega)
  simp [chunksL, rangeStep, h]

/-- Unfolding step of `chunks` on a non-empty list: the first chunk is the
first `n` elements, the rest is `chunks` of the remainder. -/
theorem chunksL_cons {α} (n : Nat) (hn : 1 ≤ n) (l : List α) (hl : l ≠ []) :
    chunksL l n = l.take n :: chunksL (l.drop n) n := by
  have hstop : 1 ≤ l.length := List.length_pos.2 hl
  have hm : (l.length + n - 1) / n = ((l.length - n) + n - 1) / n + 1 := by
    rcases le_or_lt l.length n with hle | hlt
    · have h1 : l.length + n - 1 = (l.length - 1) + n := by omega
      have h3 : l.length - n = 0 := by omega
      rw [h1, Nat.add_div_right _ (by omega), h3,
        Nat.div_eq_of_lt (by omega : l.length - 1 < n),
        Nat.div_eq_of_lt (by omega : 0 + n - 1 < n)]
    · have h1 : l.length + n - 1 = (l.length - 1) + n := by omega
      have h2 : (l.length - n) + n - 1 = (l.length - n - 1) + n := by omega
      have h3 : l.length - 1 = (l.length - n - 1) + n := by omega
      rw [h1, h2, Nat.add_div_right _ (by omega), Nat.add_div_right _ (by omega), h3,
        Nat.add_div_right _ (by omega)]
  rw [chunksL, chunksL, rangeStep, rangeStep, List.length_drop, hm,
    List.range_succ_eq_map]
  simp only [List.map_cons, List.map_map, Nat.zero_mul, List.drop_zero]
  refine congrArg (l.take n :: ·) ?_
  apply List.map_congr_left
  intro j _
  simp only [Function.comp_apply, Nat.succ_mul]
  rw [List.drop_drop]
  congr 1
  ring_nf

/-- The chunks of `chunks(l, n)` concatenate back to `l` (so every element
appears exactly once, in the original order, and the chunks are
consecutive slices). -/
theorem chunksL_flatten {α} (n : Nat) (hn : 1 ≤ n) (l : List α) :
    (chunksL l n).flatten = l := by
  have H : ∀ (len : Nat) (l : List α), l.length ≤ len → (chunksL l n).flatten = l := by
    intro len
    induction len with
    | zero =>
      intro l hl
      have : l = [] := List.eq_nil_of_length_eq_zero (by omega)
      subst this
      simp [chunksL_nil]
    | succ len ih =>
      intro l hl
      cases l with
      | nil => simp [chunksL_nil]
      | cons x xs =>
        rw [chunksL_cons n hn _ (by simp), List.flatten_cons,
          ih ((x :: xs).drop n) (by simp [List.length_drop] at hl ⊢; omega),
          List.take_append_drop]
  exact H l.length l le_rfl

/-- Every chunk has length at most `n`. -/
theorem chunksL_mem_length {α} {l c : List α} {n : Nat} (hc : c ∈ chunksL l n) :
    c.length ≤ n := by
  simp only [chunksL, List.mem_map] at hc
  obtain ⟨i, _, rfl⟩ := hc
  simp [List.length_take]

/-- Every index produced by `range(0, stop, n)` for `n >= 1` is below
`stop`. -/
theorem rangeStep_lt {stop n i : Nat} (hn : 1 ≤ n) (hi : i ∈ rangeStep stop n) :
    i < stop := by
  simp only [rangeStep, List.mem_map, List.mem_range] at hi
  obtain ⟨j, hj, rfl⟩ := hi
  have hstop : 1 ≤ stop := by
    by_contra hc
    have h0 : stop = 0 := by omega
    subst h0
    rw [Nat.div_eq_of_lt (by omega : 0 + n - 1 < n)] at hj
    omega
  have h1 : (stop + n - 1) / n = (stop - 1) / n + 1 := by
    rw [show stop + n - 1 = (stop - 1) + n from by omega, Nat.add_div_right _ (by omega)]
  rw [h1] at hj
  have h3 : j * n ≤ ((stop - 1) / n) * n := Nat.mul_le_mul_right _ (by omega)
  have h4 : ((stop - 1) / n) * n ≤ stop - 1 := Nat.div_mul_le_self _ _
  omega

/-- For `n >= 1` every chunk is non-empty. -/
theorem chunksL_mem_ne_nil {α} {l c : List α} {n : Nat} (hn : 1 ≤ n)
    (hc : c ∈ chunksL l n) : c ≠ [] := by
  simp only [chunksL, List.mem_map] at hc
  obtain ⟨i, hi, rfl⟩ := hc
  have hlt := rangeStep_lt hn hi
  intro h
  have := congrArg List.length h
  simp [List.length_take, List.length_drop] at this
  omega

/-- Every chunk except possibly the last has length exactly `n`. -/
theorem chunksL_dropLast_length {α} {n : Nat} (hn : 1 ≤ n) (l : List α) :
    ∀ c ∈ (chunksL l n).dropLast, c.length = n := by
  have H : ∀ (len : Nat) (l : List α), l.length ≤ len →
      ∀ c ∈ (chunksL l n).dropLast, c.length = n := by
    intro len
    induction len with
    | zero =>
      intro l hl
      have : l = [] := List.eq_nil_of_length_eq_zero (by omega)
      subst this
      simp [chunksL_nil]
    | succ len ih =>
      intro l hl
      cases l with
      | nil => simp [chunksL_nil]
      | cons x xs =>
        rw [chunksL_cons n hn _ (by simp)]
        cases h2 : chunksL ((x :: xs).drop n) n with
        | nil => simp
        | cons c2 cs2 =>
          have hdrop : (x :: xs).drop n ≠ [] := by
            intro hd
            rw [hd, chunksL_nil] at h2
            cases h2
          have hlen : n < (x :: xs).length := by
            by_contra hc
            exact hdrop (List.drop_eq_nil_of_le (by omega))
          intro c hc
          rw [List.dropLast_cons₂] at hc
          rcases List.mem_cons.1 hc with rfl | hc
          · rw [List.length_take]
            omega
          · rw [← h2] at hc
            exact ih ((x :: xs).drop n) (by simp [List.length_drop] at hl ⊢; omega) c hc
  exact H l.length l le_rfl

/-- C3: for `n >= 1`, `chunks(l, n)` (which is what the program's
`chunks` yields for a positive integer argument) partitions `l` into
consecutive slices: they concatenate back to `l` in order, each has
length at most `n`, each is non-empty, and all but possibly the last have
length exactly `n`. -/
theorem c3_chunks_partition {α} (l : List α) (n : Nat) (hn : 1 ≤ n) :
    chunksPy l (n : Int) = .ok (chunksL l n) ∧
    (chunksL l n).flatten = l ∧
    (∀ c ∈ chunksL l n, c.length ≤ n ∧ c ≠ []) ∧
    (∀ c ∈ (chunksL l n).dropLast, c.length = n) := by
  refine ⟨?_, chunksL_flatten n hn l,
    fun c hc => ⟨chunksL_mem_length hc, chunksL_mem_ne_nil hn hc⟩,
    chunksL_dropLast_length hn l⟩
  rw [chunksPy, if_neg (by exact_mod_cast (by omega : ¬(n = 0))),
    if_neg (by simp), Int.toNat_natCast]

/-- Witness for `c3_chunks_partition` on a five-element list with chunk
size two. -/
theorem c3_chunks_partition_wit :
    1 ≤ 2 ∧
    (chunksPy ([1, 2, 3, 4, 5] : List Nat) ((2 : Nat) : Int) =
        .ok (chunksL [1, 2, 3, 4, 5] 2) ∧
      (chunksL ([1, 2, 3, 4, 5] : List Nat) 2).flatten = [1, 2, 3, 4, 5] ∧
      (∀ c ∈ chunksL ([1, 2, 3, 4, 5] : List Nat) 2, c.length ≤ 2 ∧ c ≠ []) ∧
      (∀ c ∈ (chunksL ([1, 2, 3, 4, 5] : List Nat) 2).dropLast, c.length = 2)) :=
  ⟨by decide, c3_chunks_partition [1, 2, 3, 4, 5] 2 (by decide)⟩

/-- C9 counterexample: for the negative chunk size -1, `range` does not
raise — `chunks` silently yields no chunks at all, so the claim that every
`n <= 0` makes the underlying range raise an error is false. -/
theorem c9_counterexample : chunksPy ([0] : List Nat) (-1) = Except.ok [] := by
  rw [chunksPy, if_neg (by decide), if_pos (by decide)]

/-- C9 amended: `chunks` is degenerate for every `n <= 0` — `n = 0` makes
the underlying `range` raise ValueError, while `n < 0` yields no chunks
at all — and the scheduler protects the call: `chunks` is invoked only on
the branch where `parallel > 0`, every `parallel <= 0` taking the
sequential path, so neither degenerate case is reachable and `main` never
sees the range error. -/
theorem c9_chunks_guarded (mk : Fpath → Bool) (ec : List Pstr → Int)
    (es : List Entry) (inR outR : Fpath) (q : Nat) (vb : Bool)
    (fs : List Fpath) :
    (∀ l : List Fpath, chunksPy l 0 = .error ()) ∧
    (∀ (l : List Fpath) (m : Int), m < 0 → chunksPy l m = .ok []) ∧
    (∀ parallel : Int, ∃ out, mainRun mk ec es inR outR q parallel vb fs = .ok out) := by
  refine ⟨fun l => by rw [chunksPy, if_pos rfl], ?_, ?_⟩
  · intro l m hm
    rw [chunksPy, if_neg (by omega), if_pos hm]
  · intro parallel
    by_cases hp : parallel ≤ 0
    · exact ⟨.seqOut (runSeqE mk ec inR outR q vb fs (walkRoot inR es)),
        by simp only [mainRun]; rw [if_pos hp]⟩
    · exact ⟨.parOut (runParChunks mk ec inR outR q vb fs
          (chunksL (walkRoot inR es) parallel.toNat)),
        by simp only [mainRun]
           rw [if_neg hp, chunksPy, if_neg (by omega), if_neg (by omega)]⟩

/-- Witness for `c9_chunks_guarded`: chunk size -2 yields no chunks
rather than an error. -/
theorem c9_chunks_guarded_wit :
    ((-2 : Int) < 0) ∧ chunksPy ([] : List Fpath) (-2) = Except.ok [] :=
  ⟨by decide,
    (c9_chunks_guarded (fun _ => true) (fun _ => 0) [] [] [] 0 false []).2.1 [] (-2)
      (by decide)⟩

/-
  Lemmas about the sequential run.
-/

/-- The set of existing files only grows during a sequential run. -/
theorem runSeqE_fs_mono (mk : Fpath → Bool) (ec : List Pstr → Int)
    (inR outR : Fpath) (q : Nat) (vb : Bool) :
    ∀ (files fs : List Fpath), fs ⊆ (runSeqE mk ec inR outR q vb fs files).fsOut := by
  intro files
  induction files with
  | nil =>
    intro fs
    simp only [runSeqE]
    exact fun a ha => ha
  | cons name rest ih =>
    intro fs
    cases hmd : mapDest inR outR name with
    | none =>
      simp only [runSeqE, hmd]
      exact fun a ha => ha
    | some pr =>
      obtain ⟨pd, nf⟩ := pr
      by_cases hmk : mk pd
      · by_cases hmem : nf ∈ fs
        · simp only [runSeqE, hmd, if_pos hmk, if_pos hmem]
          exact ih fs
        · simp only [runSeqE, hmd, if_pos hmk, if_neg hmem]
          exact fun a ha => ih (nf :: fs) (List.mem_cons_of_mem _ ha)
      · simp only [runSeqE, hmd, if_neg hmk]
        exact fun a ha => ha

/-- Every destination a sequential run invokes the encoder for did not
exist when the run started. -/
theorem runSeqE_callDests_fresh (mk : Fpath → Bool) (ec : List Pstr → Int)
    (inR outR : Fpath) (q : Nat) (vb : Bool) :
    ∀ (files fs : List Fpath) (d : Fpath),
      d ∈ callDests (runSeqE mk ec inR outR q vb fs files).log → d ∉ fs := by
  intro files
  induction files with
  | nil =>
    intro fs d hd
    simp only [runSeqE] at hd
    simp [callDests] at hd
  | cons name rest ih =>
    intro fs d hd
    cases hmd : mapDest inR outR name with
    | none =>
      simp only [runSeqE, hmd] at hd
      simp [callDests] at hd
    | some pr =>
      obtain ⟨pd, nf⟩ := pr
      by_cases hmk : mk pd
      · by_cases hmem : nf ∈ fs
        · simp only [runSeqE, hmd, if_pos hmk, if_pos hmem] at hd
          exact ih fs d hd
        · simp only [runSeqE, hmd, if_pos hmk, if_neg hmem, callDests] at hd
          rcases List.mem_cons.1 hd with rfl | hd2
          · exact hmem
          · intro hdf
            exact ih (nf :: fs) d hd2 (List.mem_cons_of_mem _ hdf)
      · simp only [runSeqE, hmd, if_neg hmk] at hd
        simp [callDests] at hd

/-- If every file existing after a run from `fs1` also exists in `fs2`,
then the same run from `fs2` performs no encoder invocation: every job is
skipped (or the run aborts at the same exception as before). -/
theorem runSeqE_skip (mk : Fpath → Bool) (ec : List Pstr → Int)
    (inR outR : Fpath) (q : Nat) (vb : Bool) :
    ∀ (files fs1 fs2 : List Fpath),
      (runSeqE mk ec inR outR q vb fs1 files).fsOut ⊆ fs2 →
      callsOf (runSeqE mk ec inR outR q vb fs2 files).log = [] := by
  intro files
  induction files with
  | nil =>
    intro fs1 fs2 _
    simp only [runSeqE]
    rfl
  | cons name rest ih =>
    intro fs1 fs2 h
    cases hmd : mapDest inR outR name with
    | none =>
      simp only [runSeqE, hmd]
      rfl
    | some pr =>
      obtain ⟨pd, nf⟩ := pr
      by_cases hmk : mk pd
      · by_cases hm1 : nf ∈ fs1
        · simp only [runSeqE, hmd, if_pos hmk, if_pos hm1] at h
          have hm2 : nf ∈ fs2 :=
            h (runSeqE_fs_mono mk ec inR outR q vb rest fs1 hm1)
          simp only [runSeqE, hmd, if_pos hmk, if_pos hm2]
          exact ih fs1 fs2 h
        · simp only [runSeqE, hmd, if_pos hmk, if_neg hm1] at h
          have hm2 : nf ∈ fs2 :=
            h (runSeqE_fs_mono mk ec inR outR q vb rest (nf :: fs1)
              (List.mem_cons_self _ _))
          simp only [runSeqE, hmd, if_pos hmk, if_pos hm2]
          exact ih (nf :: fs1) fs2 h
      · simp only [runSeqE, hmd, if_neg hmk]
        rfl

/-- A sequential run that did not abort on a list `l1` continues through
an appended list `l2`: the events are those of `l1` followed by those of
`l2` run from the filesystem `l1` left behind. -/
theorem runSeqE_append (mk : Fpath → Bool) (ec : List Pstr → Int)
    (inR outR : Fpath) (q : Nat) (vb : Bool) :
    ∀ (l1 l2 fs : List Fpath), (runSeqE mk ec inR outR q vb fs l1).err = none →
      runSeqE mk ec inR outR q vb fs (l1 ++ l2) =
        ⟨(runSeqE mk ec inR outR q vb fs l1).log ++
            (runSeqE mk ec inR outR q vb
              (runSeqE mk ec inR outR q vb fs l1).fsOut l2).log,
          (runSeqE mk ec inR outR q vb
            (runSeqE mk ec inR outR q vb fs l1).fsOut l2).fsOut,
          (runSeqE mk ec inR outR q vb
            (runSeqE mk ec inR outR q vb fs l1).fsOut l2).err⟩ := by
  intro l1
  induction l1 with
  | nil =>
    intro l2 fs _
    simp only [runSeqE, List.nil_append]
  | cons name rest ih =>
    intro l2 fs h
    cases hmd : mapDest inR outR name with
    | none =>
      simp only [runSeqE, hmd] at h
      exact absurd h (by simp)
    | some pr =>
      obtain ⟨pd, nf⟩ := pr
      by_cases hmk : mk pd
      · by_cases hmem : nf ∈ fs
        · simp only [runSeqE, List.cons_append, hmd, if_pos hmk, if_pos hmem] at h ⊢
          exact ih l2 fs h
        · simp only [runSeqE, List.cons_append, List.append_eq, hmd, if_pos hmk,
            if_neg hmem] at h ⊢
          rw [ih l2 (nf :: fs) h]
      · simp only [runSeqE, List.cons_append, hmd, if_neg hmk] at h
        exact absurd h (by simp)

/-- The sequential run is unaffected by the exit statuses the external
encoder returns: apart from the recorded statuses themselves, the event
log, the resulting filesystem and the error outcome are identical for any
two exit-status assignments. -/
theorem runSeqE_ec_eq (mk : Fpath → Bool) (inR outR : Fpath) (q : Nat)
    (vb : Bool) (ec ec' : List Pstr → Int) :
    ∀ (files fs : List Fpath),
      (runSeqE mk ec inR outR q vb fs files).log.map stripCode =
        (runSeqE mk ec' inR outR q vb fs files).log.map stripCode ∧
      (runSeqE mk ec inR outR q vb fs files).fsOut =
        (runSeqE mk ec' inR outR q vb fs files).fsOut ∧
      (runSeqE mk ec inR outR q vb fs files).err =
        (runSeqE mk ec' inR outR q vb fs files).err := by
  intro files
  induction files with
  | nil =>
    intro fs
    simp [runSeqE]
  | cons name rest ih =>
    intro fs
    cases hmd : mapDest inR outR name with
    | none =>
      simp [runSeqE, hmd]
    | some pr =>
      obtain ⟨pd, nf⟩ := pr
      by_cases hmk : mk pd
      · by_cases hmem : nf ∈ fs
        · simp only [runSeqE, hmd, if_pos hmk, if_pos hmem]
          exact ih fs
        · simp only [runSeqE, hmd, if_pos hmk, if_neg hmem, List.map_cons]
          obtain ⟨h1, h2, h3⟩ := ih (nf :: fs)
          exact ⟨by rw [h1]; rfl, h2, h3⟩
      · simp [runSeqE, hmd, if_neg hmk]

/-- C6: the encoder's exit status is never inspected — for any two
assignments of exit statuses (in particular one where some invocation
exits non-zero) the run's observable behaviour is identical: same events,
same resulting filesystem, no error raised or propagated; and a sequential
run that has not aborted continues through every subsequent file. -/
theorem c6_exit_status_ignored (mk : Fpath → Bool) (inR outR : Fpath)
    (q : Nat) (vb : Bool) (fs : List Fpath) (ec ec' : List Pstr → Int)
    (files : List Fpath) :
    ((runSeqE mk ec inR outR q vb fs files).log.map stripCode =
        (runSeqE mk ec' inR outR q vb fs files).log.map stripCode ∧
      (runSeqE mk ec inR outR q vb fs files).fsOut =
        (runSeqE mk ec' inR outR q vb fs files).fsOut ∧
      (runSeqE mk ec inR outR q vb fs files).err =
        (runSeqE mk ec' inR outR q vb fs files).err) ∧
    (∀ l1 l2 : List Fpath, (runSeqE mk ec inR outR q vb fs l1).err = none →
      runSeqE mk ec inR outR q vb fs (l1 ++ l2) =
        ⟨(runSeqE mk ec inR outR q vb fs l1).log ++
            (runSeqE mk ec inR outR q vb
              (runSeqE mk ec inR outR q vb fs l1).fsOut l2).log,
          (runSeqE mk ec inR outR q vb
            (runSeqE mk ec inR outR q vb fs l1).fsOut l2).fsOut,
          (runSeqE mk ec inR outR q vb
            (runSeqE mk ec inR outR q vb fs l1).fsOut l2).err⟩) :=
  ⟨runSeqE_ec_eq mk inR outR q vb ec ec' files fs,
    fun l1 l2 h => runSeqE_append mk ec inR outR q vb l1 l2 fs h⟩

/-- Witness for `c6_exit_status_ignored`: one encoder that fails with
status 1 on everything against one that succeeds, on a one-file input;
and the continuation property applied to a concrete split. -/
theorem c6_exit_status_ignored_wit :
    ((runSeqE (fun _ => true) (fun _ => 1) [] ["o".data] 3 false []
          [["a.flac".data]]).log.map stripCode =
        (runSeqE (fun _ => true) (fun _ => 0) [] ["o".data] 3 false []
          [["a.flac".data]]).log.map stripCode ∧
      (runSeqE (fun _ => true) (fun _ => 1) [] ["o".data] 3 false []
          [["a.flac".data]]).fsOut =
        (runSeqE (fun _ => true) (fun _ => 0) [] ["o".data] 3 false []
          [["a.flac".data]]).fsOut ∧
      (runSeqE (fun _ => true) (fun _ => 1) [] ["o".data] 3 false []
          [["a.flac".data]]).err =
        (runSeqE (fun _ => true) (fun _ => 0) [] ["o".data] 3 false []
          [["a.flac".data]]).err) ∧
    ((runSeqE (fun _ => true) (fun _ => 1) [] ["o".data] 3 false []
        [["a.flac".data]]).err = none ∧
      runSeqE (fun _ => true) (fun _ => 1) [] ["o".data] 3 false []
          ([["a.flac".data]] ++ [["b.flac".data]]) =
        ⟨(runSeqE (fun _ => true) (fun _ => 1) [] ["o".data] 3 false []
              [["a.flac".data]]).log ++
            (runSeqE (fun _ => true) (fun _ => 1) [] ["o".data] 3 false
              (runSeqE (fun _ => true) (fun _ => 1) [] ["o".data] 3 false []
                [["a.flac".data]]).fsOut [["b.flac".data]]).log,
          (runSeqE (fun _ => true) (fun _ => 1) [] ["o".data] 3 false
            (runSeqE (fun _ => true) (fun _ => 1) [] ["o".data] 3 false []
              [["a.flac".data]]).fsOut [["b.flac".data]]).fsOut,
          (runSeqE (fun _ => true) (fun _ => 1) [] ["o".data] 3 false
            (runSeqE (fun _ => true) (fun _ => 1) [] ["o".data] 3 false []
              [["a.flac".data]]).fsOut [["b.flac".data]]).err⟩) :=
  ⟨(c6_exit_status_ignored (fun _ => true) [] ["o".data] 3 false []
      (fun _ => 1) (fun _ => 0) [["a.flac".data]]).1,
    by decide,
    (c6_exit_status_ignored (fun _ => true) [] ["o".data] 3 false []
        (fun _ => 1) (fun _ => 0) [["a.flac".data]]).2
      [["a.flac".data]] [["b.flac".data]] (by decide)⟩

/-
  Lemmas about the parallel run.
-/

/-- Every destination a chunk launches a task for did not exist when the
chunk started. -/
theorem runChunk_dst_fresh (mk : Fpath → Bool) (ec : List Pstr → Int)
    (inR outR : Fpath) (q : Nat) (vb : Bool) :
    ∀ (c fs : List Fpath) (d : Fpath),
      d ∈ (runChunk mk ec inR outR q vb fs c).launchedDst → d ∉ fs := by
  intro c
  induction c with
  | nil =>
    intro fs d hd
    simp [runChunk] at hd
  | cons name rest ih =>
    intro fs d hd
    cases hmd : mapDest inR outR name with
    | none => simp [runChunk, hmd] at hd
    | some pr =>
      obtain ⟨pd, nf⟩ := pr
      by_cases hmk : mk pd
      · by_cases hmem : nf ∈ fs
        · simp only [runChunk, hmd, if_pos hmk, if_pos hmem] at hd
          exact ih fs d hd
        · simp only [runChunk, hmd, if_pos hmk, if_neg hmem] at hd
          rcases List.mem_cons.1 hd with rfl | hd2
          · exact hmem
          · exact ih fs d hd2
      · simp [runChunk, hmd, if_neg hmk] at hd

/-- The exception with which a chunk's loop aborts does not depend on
which files already exist: existence only decides launch-versus-skip. -/
theorem runChunk_err_eq (mk : Fpath → Bool) (ec : List Pstr → Int)
    (inR outR : Fpath) (q : Nat) (vb : Bool) :
    ∀ (c fs fs' : List Fpath),
      (runChunk mk ec inR outR q vb fs c).err =
        (runChunk mk ec inR outR q vb fs' c).err := by
  intro c
  induction c with
  | nil => intro fs fs'; rfl
  | cons name rest ih =>
    intro fs fs'
    cases hmd : mapDest inR outR name with
    | none => simp [runChunk, hmd]
    | some pr =>
      obtain ⟨pd, nf⟩ := pr
      by_cases hmk : mk pd
      · by_cases hm1 : nf ∈ fs <;> by_cases hm2 : nf ∈ fs' <;>
          simp only [runChunk, hmd, if_pos hmk, hm1, hm2, if_true, if_false,
            ite_true, ite_false] <;>
          exact ih fs fs'
      · simp [runChunk, hmd, if_neg hmk]

/-- If every file existing when a chunk ran from `fs1`, and every
destination it launched, is in `fs2`, then running the same chunk from
`fs2` launches nothing. -/
theorem runChunk_skip (mk : Fpath → Bool) (ec : List Pstr → Int)
    (inR outR : Fpath) (q : Nat) (vb : Bool) :
    ∀ (c fs1 fs2 : List Fpath),
      (∀ d, d ∈ fs1 → d ∈ fs2) →
      (∀ d, d ∈ (runChunk mk ec inR outR q vb fs1 c).launchedDst → d ∈ fs2) →
      (runChunk mk ec inR outR q vb fs2 c).launchedSrc = [] ∧
      (runChunk mk ec inR outR q vb fs2 c).launchedDst = [] := by
  intro c
  induction c with
  | nil =>
    intro fs1 fs2 _ _
    simp [runChunk]
  | cons name rest ih =>
    intro fs1 fs2 h1 h2
    cases hmd : mapDest inR outR name with
    | none => simp [runChunk, hmd]
    | some pr =>
      obtain ⟨pd, nf⟩ := pr
      by_cases hmk : mk pd
      · by_cases hm1 : nf ∈ fs1
        · simp only [runChunk, hmd, if_pos hmk, if_pos hm1] at h2
          have hm2 : nf ∈ fs2 := h1 nf hm1
          simp only [runChunk, hmd, if_pos hmk, if_pos hm2]
          exact ih fs1 fs2 h1 h2
        · simp only [runChunk, hmd, if_pos hmk, if_neg hm1] at h2
          have hm2 : nf ∈ fs2 := h2 nf (List.mem_cons_self _ _)
          simp only [runChunk, hmd, if_pos hmk, if_pos hm2]
          exact ih fs1 fs2 h1 fun d hd => h2 d (List.mem_cons_of_mem _ hd)
      · simp [runChunk, hmd, if_neg hmk]

/-- The set of existing files only grows during a parallel run. -/
theorem runPar_fs_mono (mk : Fpath → Bool) (ec : List Pstr → Int)
    (inR outR : Fpath) (q : Nat) (vb : Bool) :
    ∀ (cs : List (List Fpath)) (fs : List Fpath),
      fs ⊆ (runParChunks mk ec inR outR q vb fs cs).fsOut := by
  intro cs
  induction cs with
  | nil =>
    intro fs
    simp only [runParChunks]
    exact fun a ha => ha
  | cons c rest ih =>
    intro fs
    cases herr : (runChunk mk ec inR outR q vb fs c).err with
    | some e =>
      simp only [runParChunks, herr]
      exact List.subset_append_left _ _
    | none =>
      simp only [runParChunks, herr]
      exact fun a ha =>
        ih (fs ++ (runChunk mk ec inR outR q vb fs c).launchedDst)
          (List.mem_append_left _ ha)

/-- Every destination any chunk of a parallel run launches a task for did
not exist when the run started. -/
theorem runPar_dst_fresh (mk : Fpath → Bool) (ec : List Pstr → Int)
    (inR outR : Fpath) (q : Nat) (vb : Bool) :
    ∀ (cs : List (List Fpath)) (fs : List Fpath) (d : Fpath),
      d ∈ parLaunchedDsts (runParChunks mk ec inR outR q vb fs cs) → d ∉ fs := by
  intro cs
  induction cs with
  | nil =>
    intro fs d hd
    simp [runParChunks, parLaunchedDsts] at hd
  | cons c rest ih =>
    intro fs d hd
    cases herr : (runChunk mk ec inR outR q vb fs c).err with
    | some e =>
      simp only [runParChunks, herr, parLaunchedDsts, List.map_cons,
        List.map_nil, List.flatten_cons, List.flatten_nil, List.append_nil] at hd
      exact runChunk_dst_fresh mk ec inR outR q vb c fs d hd
    | none =>
      simp only [runParChunks, herr, parLaunchedDsts, List.map_cons,
        List.flatten_cons] at hd
      rcases List.mem_append.1 hd with hd1 | hd2
      · exact runChunk_dst_fresh mk ec inR outR q vb c fs d hd1
      · intro hdf
        exact ih (fs ++ (runChunk mk ec inR outR q vb fs c).launchedDst) d hd2
          (List.mem_append_left _ hdf)

/-- If every file existing after a parallel run from `fs1` also exists in
`fs2`, the same run from `fs2` launches no task at all. -/
theorem runPar_skip (mk : Fpath → Bool) (ec : List Pstr → Int)
    (inR outR : Fpath) (q : Nat) (vb : Bool) :
    ∀ (cs : List (List Fpath)) (fs1 fs2 : List Fpath),
      (runParChunks mk ec inR outR q vb fs1 cs).fsOut ⊆ fs2 →
      parLaunchedSrcs (runParChunks mk ec inR outR q vb fs2 cs) = [] := by
  intro cs
  induction cs with
  | nil =>
    intro fs1 fs2 _
    simp [runParChunks, parLaunchedSrcs]
  | cons c rest ih =>
    intro fs1 fs2 h
    cases herr : (runChunk mk ec inR outR q vb fs1 c).err with
    | some e =>
      simp only [runParChunks, herr] at h
      have hskip := runChunk_skip mk ec inR outR q vb c fs1 fs2
        (fun d hd => h (List.mem_append_left _ hd))
        (fun d hd => h (List.mem_append_right _ hd))
      have herr2 : (runChunk mk ec inR outR q vb fs2 c).err = some e := by
        rw [← runChunk_err_eq mk ec inR outR q vb c fs1 fs2, herr]
      simp only [runParChunks, herr2, parLaunchedSrcs, List.map_cons,
        List.map_nil, List.flatten_cons, List.flatten_nil, List.append_nil]
      exact hskip.1
    | none =>
      simp only [runParChunks, herr] at h
      have hsub : fs1 ++ (runChunk mk ec inR outR q vb fs1 c).launchedDst ⊆
          (runParChunks mk ec inR outR q vb
            (fs1 ++ (runChunk mk ec inR outR q vb fs1 c).launchedDst) rest).fsOut :=
        runPar_fs_mono mk ec inR outR q vb rest _
      have hskip := runChunk_skip mk ec inR outR q vb c fs1 fs2
        (fun d hd => h (hsub (List.mem_append_left _ hd)))
        (fun d hd => h (hsub (List.mem_append_right _ hd)))
      have herr2 : (runChunk mk ec inR outR q vb fs2 c).err = none := by
        rw [← runChunk_err_eq mk ec inR outR q vb c fs1 fs2, herr]
      simp only [runParChunks, herr2, parLaunchedSrcs, List.map_cons,
        List.flatten_cons, hskip.1, hskip.2, List.append_nil, List.nil_append]
      exact ih (fs1 ++ (runChunk mk ec inR outR q vb fs1 c).launchedDst) fs2 h

/-- C4: a job whose destination file already exists before it runs never
reaches the encoder — in sequential mode no invocation carries such a
destination, in parallel mode no task is launched for it — and a second
run over the same inputs, starting from the filesystem the first run left
behind, performs zero encoder invocations in either mode. -/
theorem c4_existing_destination_skipped (mk : Fpath → Bool)
    (ec : List Pstr → Int) (inR outR : Fpath) (q : Nat) (vb : Bool)
    (fs files : List Fpath) (cs : List (List Fpath)) (d : Fpath)
    (hd : d ∈ fs) :
    d ∉ callDests (runSeqE mk ec inR outR q vb fs files).log ∧
    d ∉ parLaunchedDsts (runParChunks mk ec inR outR q vb fs cs) ∧
    callsOf (runSeqE mk ec inR outR q vb
      (runSeqE mk ec inR outR q vb fs files).fsOut files).log = [] ∧
    parLaunchedSrcs (runParChunks mk ec inR outR q vb
      (runParChunks mk ec inR outR q vb fs cs).fsOut cs) = [] :=
  ⟨fun hmem => runSeqE_callDests_fresh mk ec inR outR q vb files fs d hmem hd,
    fun hmem => runPar_dst_fresh mk ec inR outR q vb cs fs d hmem hd,
    runSeqE_skip mk ec inR outR q vb files fs _ (fun _ ha => ha),
    runPar_skip mk ec inR outR q vb cs fs _ (fun _ ha => ha)⟩

/-- Witness for `c4_existing_destination_skipped`: the destination of
"a.flac" already exists; neither mode invokes the encoder for it, and
second runs invoke nothing. -/
theorem c4_existing_destination_skipped_wit :
    (["o".data, "a.mp3".data] ∈ [["o".data, "a.mp3".data]]) ∧
    (["o".data, "a.mp3".data] ∉ callDests (runSeqE (fun _ => true) (fun _ => 0)
        [] ["o".data] 3 false [["o".data, "a.mp3".data]] [["a.flac".data]]).log ∧
    ["o".data, "a.mp3".data] ∉ parLaunchedDsts (runParChunks (fun _ => true)
        (fun _ => 0) [] ["o".data] 3 false [["o".data, "a.mp3".data]]
        [[["a.flac".data]]]) ∧
    callsOf (runSeqE (fun _ => true) (fun _ => 0) [] ["o".data] 3 false
      (runSeqE (fun _ => true) (fun _ => 0) [] ["o".data] 3 false
        [["o".data, "a.mp3".data]] [["a.flac".data]]).fsOut
      [["a.flac".data]]).log = [] ∧
    parLaunchedSrcs (runParChunks (fun _ => true) (fun _ => 0) [] ["o".data]
      3 false
      (runParChunks (fun _ => true) (fun _ => 0) [] ["o".data] 3 false
        [["o".data, "a.mp3".data]] [[["a.flac".data]]]).fsOut
      [[["a.flac".data]]]) = []) :=
  ⟨by decide,
    c4_existing_destination_skipped (fun _ => true) (fun _ => 0) [] ["o".data]
      3 false [["o".data, "a.mp3".data]] [["a.flac".data]] [[["a.flac".data]]]
      ["o".data, "a.mp3".data] (by decide)⟩

/-- A chunk loop that did not abort on a prefix continues through an
appended part, accumulating events and launches (existence checks keep
seeing the chunk-start filesystem). -/
theorem runChunk_append (mk : Fpath → Bool) (ec : List Pstr → Int)
    (inR outR : Fpath) (q : Nat) (vb : Bool) :
    ∀ (c1 c2 fs : List Fpath), (runChunk mk ec inR outR q vb fs c1).err = none →
      runChunk mk ec inR outR q vb fs (c1 ++ c2) =
        ⟨(runChunk mk ec inR outR q vb fs c1).log ++
            (runChunk mk ec inR outR q vb fs c2).log,
          (runChunk mk ec inR outR q vb fs c1).launchedSrc ++
            (runChunk mk ec inR outR q vb fs c2).launchedSrc,
          (runChunk mk ec inR outR q vb fs c1).launchedDst ++
            (runChunk mk ec inR outR q vb fs c2).launchedDst,
          (runChunk mk ec inR outR q vb fs c2).err⟩ := by
  intro c1
  induction c1 with
  | nil =>
    intro c2 fs _
    simp only [runChunk, List.nil_append]
  | cons name rest ih =>
    intro c2 fs h
    cases hmd : mapDest inR outR name with
    | none =>
      simp only [runChunk, hmd] at h
      exact absurd h (by simp)
    | some pr =>
      obtain ⟨pd, nf⟩ := pr
      by_cases hmk : mk pd
      · by_cases hmem : nf ∈ fs
        · simp only [runChunk, List.cons_append, List.append_eq, hmd,
            if_pos hmk, if_pos hmem] at h ⊢
          exact ih c2 fs h
        · simp only [runChunk, List.cons_append, List.append_eq, hmd,
            if_pos hmk, if_neg hmem] at h ⊢
          rw [ih c2 fs h]
      · simp only [runChunk, List.cons_append, hmd, if_neg hmk] at h
        exact absurd h (by simp)

/-- C7 counterexample: with two files in the same chunk of a parallel
run, a directory-creation failure on the first aborts the whole run —
the sibling "e/b.flac" in the same chunk is never launched (no task is
launched at all), refuting the claim that such a failure is fatal only
for the single failing job. -/
theorem c7_counterexample :
    (runParChunks (fun d => !(decide (d = ["o".data, "d".data])))
        (fun _ => 0) [] ["o".data] 3 false []
        [[["d".data, "a.flac".data], ["e".data, "b.flac".data]]]).err =
      some (RunErr.mkdirFail ["o".data, "d".data]) ∧
    parLaunchedSrcs (runParChunks (fun d => !(decide (d = ["o".data, "d".data])))
        (fun _ => 0) [] ["o".data] 3 false []
        [[["d".data, "a.flac".data], ["e".data, "b.flac".data]]]) = [] := by
  constructor
  · decide
  · decide

/-- C7 amended: directory creation runs in the scheduler's own process in
both branches, so a FilesystemError while creating one job's destination
directory aborts the whole run in parallel mode exactly as in sequential
mode: the failing chunk stops at the failing job (jobs launched before it
stay launched, but siblings after it in the same chunk are not launched),
no later chunk is processed, and the sequential loop likewise stops with
the same error, emitting no further events. -/
theorem c7_mkdir_failure_aborts (mk : Fpath → Bool) (ec : List Pstr → Int)
    (inR outR : Fpath) (q : Nat) (vb : Bool) (fs : List Fpath)
    (name pd nf : Fpath) (c1 c2 : List Fpath) (cs2 : List (List Fpath))
    (hmap : mapDest inR outR name = some (pd, nf))
    (hmk : mk pd = false)
    (h1 : (runChunk mk ec inR outR q vb fs c1).err = none)
    (h2 : (runSeqE mk ec inR outR q vb fs c1).err = none) :
    (runChunk mk ec inR outR q vb fs (c1 ++ name :: c2)).err =
      some (RunErr.mkdirFail pd) ∧
    (runChunk mk ec inR outR q vb fs (c1 ++ name :: c2)).launchedSrc =
      (runChunk mk ec inR outR q vb fs c1).launchedSrc ∧
    (runParChunks mk ec inR outR q vb fs ((c1 ++ name :: c2) :: cs2)).err =
      some (RunErr.mkdirFail pd) ∧
    (runParChunks mk ec inR outR q vb fs ((c1 ++ name :: c2) :: cs2)).chunksOut =
      [runChunk mk ec inR outR q vb fs (c1 ++ name :: c2)] ∧
    (runSeqE mk ec inR outR q vb fs (c1 ++ name :: c2)).err =
      some (RunErr.mkdirFail pd) ∧
    (runSeqE mk ec inR outR q vb fs (c1 ++ name :: c2)).log =
      (runSeqE mk ec inR outR q vb fs c1).log := by
  have hc : runChunk mk ec inR outR q vb fs (name :: c2) =
      ⟨[], [], [], some (.mkdirFail pd)⟩ := by
    simp [runChunk, hmap, hmk]
  have happ := runChunk_append mk ec inR outR q vb c1 (name :: c2) fs h1
  rw [hc] at happ
  have hs : runSeqE mk ec inR outR q vb
      (runSeqE mk ec inR outR q vb fs c1).fsOut (name :: c2) =
      ⟨[], (runSeqE mk ec inR outR q vb fs c1).fsOut, some (.mkdirFail pd)⟩ := by
    simp [runSeqE, hmap, hmk]
  have hsapp := runSeqE_append mk ec inR outR q vb c1 (name :: c2) fs h2
  rw [hs] at hsapp
  have herr : (runChunk mk ec inR outR q vb fs (c1 ++ name :: c2)).err =
      some (RunErr.mkdirFail pd) := by
    rw [happ]
  refine ⟨herr, by rw [happ]; simp, ?_, ?_, by rw [hsapp], by rw [hsapp]; simp⟩
  · simp only [runParChunks, herr]
  · simp only [runParChunks, herr]

/-- Witness for `c7_mkdir_failure_aborts` at the counterexample's inputs. -/
theorem c7_mkdir_failure_aborts_wit :
    (mapDest [] ["o".data] ["d".data, "a.flac".data] =
        some (["o".data, "d".data], ["o".data, "d".data, "a.mp3".data]) ∧
      (fun d => !(decide (d = ["o".data, "d".data]))) ["o".data, "d".data] = false ∧
      (runChunk (fun d => !(decide (d = ["o".data, "d".data]))) (fun _ => 0)
        [] ["o".data] 3 false [] []).err = none ∧
      (runSeqE (fun d => !(decide (d = ["o".data, "d".data]))) (fun _ => 0)
        [] ["o".data] 3 false [] []).err = none) ∧
    ((runChunk (fun d => !(decide (d = ["o".data, "d".data]))) (fun _ => 0)
        [] ["o".data] 3 false []
        ([] ++ ["d".data, "a.flac".data] :: [["e".data, "b.flac".data]])).err =
      some (RunErr.mkdirFail ["o".data, "d".data]) ∧
    (runChunk (fun d => !(decide (d = ["o".data, "d".data]))) (fun _ => 0)
        [] ["o".data] 3 false []
        ([] ++ ["d".data, "a.flac".data] :: [["e".data, "b.flac".data]])).launchedSrc =
      (runChunk (fun d => !(decide (d = ["o".data, "d".data]))) (fun _ => 0)
        [] ["o".data] 3 false [] []).launchedSrc ∧
    (runParChunks (fun d => !(decide (d = ["o".data, "d".data]))) (fun _ => 0)
        [] ["o".data] 3 false []
        (([] ++ ["d".data, "a.flac".data] :: [["e".data, "b.flac".data]]) :: [])).err =
      some (RunErr.mkdirFail ["o".data, "d".data]) ∧
    (runParChunks (fun d => !(decide (d = ["o".data, "d".data]))) (fun _ => 0)
        [] ["o".data] 3 false []
        (([] ++ ["d".data, "a.flac".data] :: [["e".data, "b.flac".data]]) :: [])).chunksOut =
      [runChunk (fun d => !(decide (d = ["o".data, "d".data]))) (fun _ => 0)
        [] ["o".data] 3 false []
        ([] ++ ["d".data, "a.flac".data] :: [["e".data, "b.flac".data]])] ∧
    (runSeqE (fun d => !(decide (d = ["o".data, "d".data]))) (fun _ => 0)
        [] ["o".data] 3 false []
        ([] ++ ["d".data, "a.flac".data] :: [["e".data, "b.flac".data]])).err =
      some (RunErr.mkdirFail ["o".data, "d".data]) ∧
    (runSeqE (fun d => !(decide (d = ["o".data, "d".data]))) (fun _ => 0)
        [] ["o".data] 3 false []
        ([] ++ ["d".data, "a.flac".data] :: [["e".data, "b.flac".data]])).log =
      (runSeqE (fun d => !(decide (d = ["o".data, "d".data]))) (fun _ => 0)
        [] ["o".data] 3 false [] []).log) :=
  ⟨⟨by decide, by decide, by decide, by decide⟩,
    c7_mkdir_failure_aborts (fun d => !(decide (d = ["o".data, "d".data])))
      (fun _ => 0) [] ["o".data] 3 false []
      ["d".data, "a.flac".data] ["o".data, "d".data]
      ["o".data, "d".data, "a.mp3".data] [] [["e".data, "b.flac".data]] []
      (by decide) (by decide) (by decide) (by decide)⟩

/-- C8 (bug evaluation): with the verbose flag set, lines 65-67 route the
encoder's combined output to `subprocess.PIPE`, which `subprocess.call`
never reads — not to a visible stream — so the output is not shown; with
the flag unset it goes to `DEVNULL` as specified.  The concrete run shows
the status line emitted immediately before the invocation and the
invocation's output stream being the unread pipe. -/
theorem c8_verbose_goes_to_pipe :
    logDevice true = StdDest.pipe ∧
    visibleDest (logDevice true) = false ∧
    logDevice false = StdDest.devnull ∧
    visibleDest (logDevice false) = false ∧
    (runSeqE (fun _ => true) (fun _ => 0) [] ["o".data] 3 true []
        [["a.flac".data]]).log =
      [SeqEv.status (ffmpegCmd 3 ["a.flac".data] ["o".data, "a.mp3".data]),
        SeqEv.call ["a.flac".data] ["o".data, "a.mp3".data]
          (ffmpegCmd 3 ["a.flac".data] ["o".data, "a.mp3".data])
          StdDest.pipe 0] := by
  refine ⟨rfl, rfl, rfl, rfl, ?_⟩
  decide

/-
  The scheduler invariant and the concurrency properties.
-/

/-- Invariant of the parallel scheduler relating a reachable state to the
trace that led to it: the remaining chunks are a suffix of the chunk
list, the current chunk bounds the pending and running tasks, every fully
completed chunk has all its exits in the trace, and every task of the
current chunk is pending, running, or already exited. -/
structure SchedInv (lcs : List (List Fpath)) (t : List SEv) (s : SchedState) : Prop where
  rest_eq : s.rest = lcs.drop s.taken
  zero_empty : s.taken = 0 → s.pending = [] ∧ s.running = []
  size_le : s.pending.length + s.running.length ≤ (chunkAt lcs (s.taken - 1)).length
  pending_mem : ∀ j, j ∈ s.pending → j ∈ chunkAt lcs (s.taken - 1)
  running_mem : ∀ j, j ∈ s.running → j ∈ chunkAt lcs (s.taken - 1)
  done_exited : ∀ i, i + 1 < s.taken → ∀ j, j ∈ chunkAt lcs i → SEv.exited i j ∈ t
  cur_account : ∀ j, j ∈ chunkAt lcs (s.taken - 1) → s.taken ≠ 0 →
    j ∈ s.pending ∨ j ∈ s.running ∨ SEv.exited (s.taken - 1) j ∈ t

/-- The invariant holds initially. -/
theorem schedInv_init (lcs : List (List Fpath)) :
    SchedInv lcs [] (schedInit lcs) := by
  refine ⟨?_, ?_, ?_, ?_, ?_, ?_, ?_⟩
  · simp [schedInit]
  · exact fun _ => ⟨rfl, rfl⟩
  · simp [schedInit]
  · intro j hj; exact absurd hj (by simp [schedInit])
  · intro j hj; exact absurd hj (by simp [schedInit])
  · intro i hi; exact absurd hi (by simp [schedInit])
  · intro j _ h0; exact absurd rfl h0

/-- The invariant is preserved by every scheduler step. -/
theorem schedStep_inv {lcs : List (List Fpath)} {t e : List SEv}
    {s s' : SchedState} (hinv : SchedInv lcs t s) (hstep : SchedStep s e s') :
    SchedInv lcs (t ++ e) s' := by
  cases hstep with
  | @next tk c r =>
    rw [List.append_nil]
    have hrest : c :: r = lcs.drop tk := hinv.rest_eq
    have hcur : chunkAt lcs tk = c := by
      rw [chunkAt, ← hrest]
      rfl
    refine ⟨?_, ?_, ?_, ?_, ?_, ?_, ?_⟩
    · show r = lcs.drop (tk + 1)
      calc r = ((c :: r).drop 1 : List (List Fpath)) := rfl
        _ = (lcs.drop tk).drop 1 := by rw [← hrest]
        _ = lcs.drop (tk + 1) := by rw [List.drop_drop]
    · intro h0
      exact absurd h0 (Nat.succ_ne_zero tk)
    · show c.length + ([] : List Fpath).length ≤ (chunkAt lcs (tk + 1 - 1)).length
      simp [hcur]
    · intro j hj
      show j ∈ chunkAt lcs (tk + 1 - 1)
      simpa [hcur] using hj
    · intro j hj
      exact absurd hj (by simp)
    · intro i hi j hj
      have hi2 : i + 1 < tk + 1 := hi
      rcases Nat.lt_or_ge (i + 1) tk with hlt | hge
      · exact hinv.done_exited i hlt j hj
      · have hieq : i = tk - 1 := by omega
        have htk0 : tk ≠ 0 := by omega
        rcases hinv.cur_account j (hieq ▸ hj) htk0 with hp | hr | he
        · exact absurd hp (by simp)
        · exact absurd hr (by simp)
        · rw [hieq]
          exact he
    · intro j hj _
      left
      show j ∈ c
      simpa [hcur] using hj
  | @launch tk j p run r =>
    have htk0 : tk ≠ 0 := fun h0 =>
      absurd (hinv.zero_empty h0).1 (List.cons_ne_nil _ _)
    refine ⟨hinv.rest_eq, fun h0 => absurd h0 htk0, ?_, ?_, ?_, ?_, ?_⟩
    · show p.length + (run ++ [j]).length ≤ _
      have := hinv.size_le
      simp only [List.length_cons, List.length_append, List.length_nil] at this ⊢
      omega
    · intro j' hj'
      exact hinv.pending_mem j' (List.mem_cons_of_mem _ hj')
    · intro j' hj'
      rcases List.mem_append.1 hj' with h | h
      · exact hinv.running_mem j' h
      · rw [List.mem_singleton.1 h]
        exact hinv.pending_mem j (List.mem_cons_self _ _)
    · intro i hi j0 hj0
      exact List.mem_append_left _ (hinv.done_exited i hi j0 hj0)
    · intro j0 hj0 _
      rcases hinv.cur_account j0 hj0 htk0 with hp | hr | he
      · rcases List.mem_cons.1 hp with rfl | hp2
        · right; left
          exact List.mem_append_right _ (List.mem_singleton.2 rfl)
        · left; exact hp2
      · right; left
        exact List.mem_append_left _ hr
      · right; right
        exact List.mem_append_left _ he
  | @exited tk j p run r hj =>
    refine ⟨hinv.rest_eq, ?_, ?_, hinv.pending_mem, ?_, ?_, ?_⟩
    · intro h0
      refine ⟨(hinv.zero_empty h0).1, ?_⟩
      rw [show run = ([] : List Fpath) from (hinv.zero_empty h0).2]
      rfl
    · show p.length + (run.erase j).length ≤ _
      have h1 : (run.erase j).length ≤ run.length :=
        (List.erase_sublist j run).length_le
      have := hinv.size_le
      simp only [List.length_cons] at this ⊢
      omega
    · intro j' hj'
      exact hinv.running_mem j' (List.mem_of_mem_erase hj')
    · intro i hi j0 hj0
      exact List.mem_append_left _ (hinv.done_exited i hi j0 hj0)
    · intro j0 hj0 htk0
      rcases hinv.cur_account j0 hj0 htk0 with hp | hr | he
      · left; exact hp
      · by_cases hjj : j0 = j
        · right; right
          rw [hjj]
          exact List.mem_append_right _ (List.mem_singleton.2 rfl)
        · right; left
          exact (List.mem_erase_of_ne hjj).2 hr
      · right; right
        exact List.mem_append_left _ he

/-- Every reachable scheduler state satisfies the invariant. -/
theorem schedReach_inv {lcs : List (List Fpath)} {t : List SEv} {s : SchedState}
    (h : SchedReach (schedInit lcs) t s) : SchedInv lcs t s := by
  induction h with
  | refl => exact schedInv_init lcs
  | step h1 h2 ih => exact schedStep_inv ih h2

/-- At every reachable instant, the number of running tasks is bounded by
the size of the largest chunk. -/
theorem sched_running_bound {lcs : List (List Fpath)} {t : List SEv}
    {s : SchedState} {K : Nat} (h : SchedReach (schedInit lcs) t s)
    (hK : ∀ c ∈ lcs, c.length ≤ K) : s.running.length ≤ K := by
  have hinv := schedReach_inv h
  have hle := hinv.size_le
  have hchunk : (chunkAt lcs (s.taken - 1)).length ≤ K := by
    rcases hd : lcs.drop (s.taken - 1) with _ | ⟨c, r⟩
    · rw [chunkAt, hd]
      simp
    · rw [chunkAt, hd]
      have hc : c ∈ lcs.drop (s.taken - 1) := by
        rw [hd]
        exact List.mem_cons_self _ _
      exact hK c (List.drop_subset _ _ hc)
  omega

/-- Injectivity of appending one final element. -/
theorem concat_inj {α} {l l' : List α} {a a' : α}
    (h : l ++ [a] = l' ++ [a']) : l = l' ∧ a = a' := by
  have h1 := congrArg List.reverse h
  simp only [List.reverse_append, List.reverse_cons, List.reverse_nil,
    List.nil_append, List.singleton_append, List.cons.injEq] at h1
  obtain ⟨rfl, h2⟩ := h1
  exact ⟨List.reverse_injective h2, rfl⟩

/-- The join barrier in every trace: before any task of a chunk is
launched, every task of every earlier chunk has already exited. -/
theorem sched_barrier {lcs : List (List Fpath)} {t : List SEv} {s : SchedState}
    (h : SchedReach (schedInit lcs) t s) :
    ∀ (t1 t2 : List SEv) (i : Nat) (j : Fpath),
      t = t1 ++ SEv.launch i j :: t2 →
      ∀ i0, i0 < i → ∀ j0 ∈ chunkAt lcs i0, SEv.exited i0 j0 ∈ t1 := by
  induction h with
  | refl =>
    intro t1 t2 i j heq
    exfalso
    have hlen := congrArg List.length heq
    simp [List.length_append] at hlen
    omega
  | @step s₁ s₂ t0 e h1 h2 ih =>
    intro t1 t2 i j heq i0 hi0 j0 hj0
    cases h2 with
    | next =>
      rw [List.append_nil] at heq
      exact ih t1 t2 i j heq i0 hi0 j0 hj0
    | @launch tk jx p run r =>
      rcases List.eq_nil_or_concat t2 with rfl | ⟨t2', y, rfl⟩
      · obtain ⟨rfl, hev⟩ := concat_inj heq
        injection hev with hie hje
        have hinv := schedReach_inv h1
        have htk0 : tk ≠ 0 := fun h0 =>
          absurd (hinv.zero_empty h0).1 (List.cons_ne_nil _ _)
        refine hinv.done_exited i0 ?_ j0 hj0
        show i0 + 1 < tk
        omega
      · rw [List.concat_eq_append] at heq
        rw [show t1 ++ SEv.launch i j :: (t2' ++ [y]) =
            (t1 ++ SEv.launch i j :: t2') ++ [y] from by simp] at heq
        obtain ⟨heq0, rfl⟩ := concat_inj heq
        exact ih t1 t2' i j heq0 i0 hi0 j0 hj0
    | @exited tk jx p run r hrun =>
      rcases List.eq_nil_or_concat t2 with rfl | ⟨t2', y, rfl⟩
      · obtain ⟨rfl, hev⟩ := concat_inj heq
        exact absurd hev (by simp)
      · rw [List.concat_eq_append] at heq
        rw [show t1 ++ SEv.launch i j :: (t2' ++ [y]) =
            (t1 ++ SEv.launch i j :: t2') ++ [y] from by simp] at heq
        obtain ⟨heq0, rfl⟩ := concat_inj heq
        exact ih t1 t2' i j heq0 i0 hi0 j0 hj0

/-- A chunk launches a subsequence of its files: launched tasks come only
from the chunk, in order. -/
theorem runChunk_src_sublist (mk : Fpath → Bool) (ec : List Pstr → Int)
    (inR outR : Fpath) (q : Nat) (vb : Bool) :
    ∀ (c fs : List Fpath),
      List.Sublist (runChunk mk ec inR outR q vb fs c).launchedSrc c := by
  intro c
  induction c with
  | nil =>
    intro fs
    simp [runChunk]
  | cons name rest ih =>
    intro fs
    cases hmd : mapDest inR outR name with
    | none => simp [runChunk, hmd]
    | some pr =>
      obtain ⟨pd, nf⟩ := pr
      by_cases hmk : mk pd
      · by_cases hmem : nf ∈ fs
        · simp only [runChunk, hmd, if_pos hmk, if_pos hmem]
          exact (ih fs).cons _
        · simp only [runChunk, hmd, if_pos hmk, if_neg hmem]
          exact (ih fs).cons₂ _
      · simp [runChunk, hmd, if_neg hmk]

/-- Every chunk outcome of a parallel run is the outcome of running one
of the input chunks from some filesystem state. -/
theorem runPar_chunks_shape (mk : Fpath → Bool) (ec : List Pstr → Int)
    (inR outR : Fpath) (q : Nat) (vb : Bool) :
    ∀ (cs : List (List Fpath)) (fs : List Fpath) (co : ChunkOut),
      co ∈ (runParChunks mk ec inR outR q vb fs cs).chunksOut →
      ∃ c, c ∈ cs ∧ ∃ fs', co = runChunk mk ec inR outR q vb fs' c := by
  intro cs
  induction cs with
  | nil =>
    intro fs co hco
    simp [runParChunks] at hco
  | cons c rest ih =>
    intro fs co hco
    cases herr : (runChunk mk ec inR outR q vb fs c).err with
    | some e =>
      simp only [runParChunks, herr] at hco
      rw [List.mem_singleton.1 hco]
      exact ⟨c, List.mem_cons_self _ _, fs, rfl⟩
    | none =>
      simp only [runParChunks, herr] at hco
      rcases List.mem_cons.1 hco with rfl | hco2
      · exact ⟨c, List.mem_cons_self _ _, fs, rfl⟩
      · obtain ⟨c0, hc0, fs', heq⟩ := ih _ co hco2
        exact ⟨c0, List.mem_cons_of_mem _ hc0, fs', heq⟩

/-- When directory creation succeeds and every file lies below the input
root, a chunk launches exactly the files of the chunk whose destination
does not yet exist: skipped files do not appear among the launched
tasks. -/
theorem runChunk_filter (mk : Fpath → Bool) (ec : List Pstr → Int)
    (inR outR : Fpath) (q : Nat) (vb : Bool) (hmk : ∀ d, mk d = true) :
    ∀ (c fs : List Fpath), (∀ nm ∈ c, ∃ rest, nm = inR ++ rest) →
      (runChunk mk ec inR outR q vb fs c).launchedSrc =
        c.filter (fun nm => !(decide (destFile inR outR nm ∈ fs))) := by
  intro c
  induction c with
  | nil =>
    intro fs _
    simp [runChunk]
  | cons name rest ih =>
    intro fs hc
    obtain ⟨restp, rfl⟩ := hc _ (List.mem_cons_self _ _)
    have hrel : relativeTo (inR ++ restp) inR = some restp := relativeTo_append _ _
    have hmd : mapDest inR outR (inR ++ restp) =
        some ((outR ++ restp).dropLast,
          (outR ++ restp).dropLast ++ [pyWithSuffix (lastComp (outR ++ restp)) mp3Ext]) := by
      simp [mapDest, hrel]
    have hdf : destFile inR outR (inR ++ restp) =
        (outR ++ restp).dropLast ++ [pyWithSuffix (lastComp (outR ++ restp)) mp3Ext] := by
      simp [destFile, hmd]
    have htail : ∀ nm ∈ rest, ∃ r0, nm = inR ++ r0 :=
      fun nm hnm => hc nm (List.mem_cons_of_mem _ hnm)
    by_cases hmem : (outR ++ restp).dropLast ++
        [pyWithSuffix (lastComp (outR ++ restp)) mp3Ext] ∈ fs
    · rw [List.filter_cons_of_neg (by simp [hdf, hmem])]
      simp only [runChunk, hmd, hmk _, if_true, if_pos hmem]
      exact ih fs htail
    · rw [List.filter_cons_of_pos (by simp [hdf, hmem])]
      simp only [runChunk, hmd, hmk _, if_true, if_neg hmem]
      rw [ih fs htail]

/-- C2: in parallel mode with chunk size `k > 0`, seeding the scheduler
semantics with the per-chunk launched-task lists of the run: (i) at every
reachable instant at most `k` encode tasks are running; (ii) the join is
a barrier — before any task of a later chunk is launched, every launched
task of every earlier chunk has exited (and a chunk whose launched list
is empty blocks nothing); (iii) skipped files do not count: a chunk
launches exactly its files whose destination does not already exist. -/
theorem c2_chunk_barrier_concurrency (mk : Fpath → Bool) (ec : List Pstr → Int)
    (inR outR : Fpath) (q : Nat) (vb : Bool) (fs files : List Fpath)
    (k : Int) (_hk : 0 < k) (hmk : ∀ d, mk d = true) :
    (∀ t s, SchedReach
        (schedInit (parLaunchChunks mk ec inR outR q vb fs files k.toNat)) t s →
      s.running.length ≤ k.toNat) ∧
    (∀ t s, SchedReach
        (schedInit (parLaunchChunks mk ec inR outR q vb fs files k.toNat)) t s →
      ∀ (t1 t2 : List SEv) (i : Nat) (j : Fpath),
        t = t1 ++ SEv.launch i j :: t2 →
        ∀ i0, i0 < i →
          ∀ j0 ∈ chunkAt (parLaunchChunks mk ec inR outR q vb fs files k.toNat) i0,
            SEv.exited i0 j0 ∈ t1) ∧
    (∀ (fs' c : List Fpath), (∀ nm ∈ c, ∃ rest, nm = inR ++ rest) →
      (runChunk mk ec inR outR q vb fs' c).launchedSrc =
        c.filter (fun nm => !(decide (destFile inR outR nm ∈ fs')))) := by
  have hlen : ∀ c ∈ parLaunchChunks mk ec inR outR q vb fs files k.toNat,
      c.length ≤ k.toNat := by
    intro c hc
    simp only [parLaunchChunks, List.mem_map] at hc
    obtain ⟨co, hco, rfl⟩ := hc
    obtain ⟨c0, hc0, fs', rfl⟩ :=
      runPar_chunks_shape mk ec inR outR q vb (chunksL files k.toNat) fs co hco
    calc (runChunk mk ec inR outR q vb fs' c0).launchedSrc.length
        ≤ c0.length := (runChunk_src_sublist mk ec inR outR q vb c0 fs').length_le
      _ ≤ k.toNat := chunksL_mem_length hc0
  exact ⟨fun t s hr => sched_running_bound hr hlen,
    fun t s hr => sched_barrier hr,
    fun fs' c hc => runChunk_filter mk ec inR outR q vb hmk c fs' hc⟩

/-- Witness for `c2_chunk_barrier_concurrency` at chunk size 1 on a
one-file input. -/
theorem c2_chunk_barrier_concurrency_wit :
    ((0 : Int) < 1 ∧ (∀ d : Fpath, (fun _ => true : Fpath → Bool) d = true)) ∧
    ((∀ t s, SchedReach
        (schedInit (parLaunchChunks (fun _ => true) (fun _ => 0) [] ["o".data]
          3 false [] [["a.flac".data]] (1 : Int).toNat)) t s →
      s.running.length ≤ (1 : Int).toNat) ∧
    (∀ t s, SchedReach
        (schedInit (parLaunchChunks (fun _ => true) (fun _ => 0) [] ["o".data]
          3 false [] [["a.flac".data]] (1 : Int).toNat)) t s →
      ∀ (t1 t2 : List SEv) (i : Nat) (j : Fpath),
        t = t1 ++ SEv.launch i j :: t2 →
        ∀ i0, i0 < i →
          ∀ j0 ∈ chunkAt (parLaunchChunks (fun _ => true) (fun _ => 0) []
            ["o".data] 3 false [] [["a.flac".data]] (1 : Int).toNat) i0,
            SEv.exited i0 j0 ∈ t1) ∧
    (∀ (fs' c : List Fpath), (∀ nm ∈ c, ∃ rest, nm = ([] : Fpath) ++ rest) →
      (runChunk (fun _ => true) (fun _ => 0) [] ["o".data] 3 false fs' c).launchedSrc =
        c.filter (fun nm => !(decide (destFile [] ["o".data] nm ∈ fs'))))) :=
  ⟨⟨by decide, fun _ => rfl⟩,
    c2_chunk_barrier_concurrency (fun _ => true) (fun _ => 0) [] ["o".data]
      3 false [] [["a.flac".data]] 1 (by decide) (fun _ => rfl)⟩

/-- Witness for `c5_discovery_exact` on a two-entry tree holding one flac
file and one file of another extension. -/
theorem c5_discovery_exact_wit :
    walkRoot [] [Entry.file "a.flac".data, Entry.file "b.txt".data] =
      (allRoot [] [Entry.file "a.flac".data, Entry.file "b.txt".data]).filter
        (fun p => decide (pySuffix (lastComp p) ∈ formats)) ∧
    (walkRoot [] [Entry.file "a.flac".data, Entry.file "b.txt".data]).length =
      (allRoot [] [Entry.file "a.flac".data, Entry.file "b.txt".data]).countP
        (fun p => decide (pySuffix (lastComp p) ∈ formats)) ∧
    ∀ p ∈ walkRoot [] [Entry.file "a.flac".data, Entry.file "b.txt".data],
      pySuffix (lastComp p) = flacExt :=
  c5_discovery_exact [] [Entry.file "a.flac".data, Entry.file "b.txt".data]

end Flac2Mp3
